import Mathlib

/-!
Verification of the ledger and payer-selection core of the coffee payment
tracker (src/backend/storage.py and src/backend/app.py).

Python `Decimal` values are embedded as rationals (`ℚ`); Python dicts from
names to Decimals are embedded as association lists (`Dict`) with the dict
operations (lookup of the first matching key, in-place update of an existing
key, append of a new key).  Python string comparison (by code point) is
embedded as an executable `Bool`-valued comparison on the underlying
character lists.  `datetime` values produced by timestamp parsing are
abstracted to `Nat` (only their linear order matters to the code), and
`datetime.fromisoformat` is a parameter `fi` of the definitions that use it;
`datetime.min` becomes `0`.  The `secrets.SystemRandom.choice` call of the
`random` tie strategy is modelled by a parameter `pick` giving the chosen
index.
-/

namespace Coffee

/-- Python `Decimal` is embedded as `ℚ` (exact decimal arithmetic). -/
abbrev Money := ℚ

/-- Round-half-up of a rational to an integer: ties go away from zero.
This is the rounding step of `Decimal.quantize(..., rounding=ROUND_HALF_UP)`
used by `money` in src/backend/storage.py. -/
def rhu (q : ℚ) : ℤ := if 0 ≤ q then ⌊q + 1/2⌋ else -⌊-q + 1/2⌋

/-- Embedding of `money` (src/backend/storage.py, lines 44-46): quantize to
2 decimal places with `ROUND_HALF_UP`. -/
def money (x : ℚ) : ℚ := (rhu (x * 100) : ℚ) / 100

/-- A rational is an exact 2-decimal value (an integer number of cents). -/
def is2dp (x : ℚ) : Prop := ∃ n : ℤ, x = (n : ℚ) / 100

theorem is2dp_zero : is2dp 0 := ⟨0, by norm_num⟩

theorem is2dp_add {x y : ℚ} (hx : is2dp x) (hy : is2dp y) : is2dp (x + y) := by
  obtain ⟨n, rfl⟩ := hx
  obtain ⟨m, rfl⟩ := hy
  exact ⟨n + m, by push_cast; ring⟩

theorem is2dp_sub {x y : ℚ} (hx : is2dp x) (hy : is2dp y) : is2dp (x - y) := by
  obtain ⟨n, rfl⟩ := hx
  obtain ⟨m, rfl⟩ := hy
  exact ⟨n - m, by push_cast; ring⟩

theorem rhu_intCast (n : ℤ) : rhu (n : ℚ) = n := by
  unfold rhu
  by_cases h : (0:ℚ) ≤ (n:ℚ)
  · rw [if_pos h]
    rw [add_comm, Int.floor_add_int]
    norm_num
  · rw [if_neg h]
    rw [show -(n:ℚ) + 1/2 = (1:ℚ)/2 + (-n : ℤ) by push_cast; ring, Int.floor_add_int]
    norm_num

/-- On exact 2-decimal values the quantization is the identity. -/
theorem money_of_is2dp {x : ℚ} (hx : is2dp x) : money x = x := by
  obtain ⟨n, rfl⟩ := hx
  unfold money
  rw [show (n : ℚ) / 100 * 100 = (n : ℚ) by field_simp, rhu_intCast]

theorem is2dp_money (x : ℚ) : is2dp (money x) := ⟨rhu (x * 100), rfl⟩

theorem money_is2dp_sum {x y : ℚ} (hx : is2dp x) (hy : is2dp y) :
    money (x + y) = x + y := money_of_is2dp (is2dp_add hx hy)

/-- Association-list embedding of a Python `dict` from names to Decimals. -/
abbrev Dict := List (String × ℚ)

/-- Dict lookup (`m[k]` / `k in m`): first entry with the given key. -/
def dget : Dict → String → Option ℚ
  | [], _ => none
  | (k0, v0) :: rest, k => if k0 = k then some v0 else dget rest k

/-- Dict assignment (`m[k] = v`): update the first entry with the key in
place, or append a new entry at the end (Python dict insertion order). -/
def dset : Dict → String → ℚ → Dict
  | [], k, v => [(k, v)]
  | (k0, v0) :: rest, k, v =>
      if k0 = k then (k0, v) :: rest else (k0, v0) :: dset rest k v

theorem dget_dset_self (m : Dict) (k : String) (v : ℚ) :
    dget (dset m k v) k = some v := by
  induction m with
  | nil => simp [dset, dget]
  | cons hd tl ih =>
      obtain ⟨k0, v0⟩ := hd
      by_cases h : k0 = k
      · simp [dset, dget, h]
      · simp [dset, dget, h, ih]

theorem dget_dset_ne (m : Dict) {k k' : String} (v : ℚ) (h : k' ≠ k) :
    dget (dset m k v) k' = dget m k' := by
  have hk : ¬ k = k' := fun hkk => h hkk.symm
  induction m with
  | nil => simp [dset, dget, hk]
  | cons hd tl ih =>
      obtain ⟨k0, v0⟩ := hd
      by_cases h0 : k0 = k
      · subst h0
        simp [dset, dget, hk]
      · simp only [dset, if_neg h0, dget]
        by_cases h1 : k0 = k'
        · simp [h1]
        · simp [h1, ih]

/-- Sum of the values of a dict (the sum of all balances). -/
def sumVals (m : Dict) : ℚ := (m.map Prod.snd).sum

/-- Assigning `v` to key `k` changes the value sum by `v` minus the old
value of `k` (an absent key contributes `0`, matching `dict.get(k, 0)`). -/
theorem sumVals_dset (m : Dict) (k : String) (v : ℚ) :
    sumVals (dset m k v) = sumVals m - (dget m k).getD 0 + v := by
  induction m with
  | nil => simp [dset, dget, sumVals]
  | cons hd tl ih =>
      obtain ⟨k0, v0⟩ := hd
      by_cases h : k0 = k
      · simp [dset, dget, h, sumVals]
        ring
      · simp only [dset, if_neg h, dget, sumVals, List.map_cons, List.sum_cons] at *
        rw [ih]
        ring

/-- Every value of the dict is an exact 2-decimal value. -/
def dict2dp (m : Dict) : Prop := ∀ kv ∈ m, is2dp kv.2

theorem dict2dp_dget {m : Dict} (h : dict2dp m) (k : String) :
    is2dp ((dget m k).getD 0) := by
  induction m with
  | nil => simpa [dget] using is2dp_zero
  | cons hd tl ih =>
      obtain ⟨k0, v0⟩ := hd
      by_cases h0 : k0 = k
      · simpa [dget, h0] using h (k0, v0) (by simp)
      · have htl : dict2dp tl := fun kv hkv => h kv (List.mem_cons_of_mem _ hkv)
        simpa [dget, h0] using ih htl

theorem dict2dp_dset {m : Dict} (h : dict2dp m) (k : String) {v : ℚ}
    (hv : is2dp v) : dict2dp (dset m k v) := by
  induction m with
  | nil =>
      intro kv hkv
      simp [dset] at hkv
      simp [hkv, hv]
  | cons hd tl ih =>
      obtain ⟨k0, v0⟩ := hd
      intro kv hkv
      by_cases h0 : k0 = k
      · simp only [dset, if_pos h0, List.mem_cons] at hkv
        rcases hkv with rfl | hkv
        · exact hv
        · exact h kv (List.mem_cons_of_mem _ hkv)
      · simp only [dset, if_neg h0, List.mem_cons] at hkv
        rcases hkv with rfl | hkv
        · exact h (k0, v0) (by simp)
        · exact ih (fun kv' hkv' => h kv' (List.mem_cons_of_mem _ hkv')) kv hkv

/-- Embedding of `compute_total_cost` (src/backend/storage.py, lines
159-167): filter `people` to those present in `prices`, sum their prices,
quantize the total. -/
def compute_total_cost (prices : Dict) (people : List String) :
    ℚ × List String :=
  let included := people.filter (fun p => (dget prices p).isSome)
  let total := (included.map (fun p => (dget prices p).getD 0)).sum
  (money total, included)

/-- Python string `<` on the underlying character lists: lexicographic by
code point.  Embedded as an executable Bool so concrete runs reduce. -/
def strLtAux : List Char → List Char → Bool
  | _, [] => false
  | [], _ :: _ => true
  | a :: as, b :: bs =>
      if a.toNat < b.toNat then true
      else if b.toNat < a.toNat then false
      else strLtAux as bs

/-- Python `s < t` for strings. -/
def pyLt (s t : String) : Bool := strLtAux s.data t.data

/-- Python `s <= t` for strings (the order used by `sorted`). -/
def pyLe (s t : String) : Prop := pyLt t s = false

instance : DecidableRel pyLe := fun s t =>
  inferInstanceAs (Decidable (pyLt t s = false))

/-- A history row as produced by `read_history` (src/backend/storage.py,
lines 109-126): timestamp string, payer name, parsed total, people list. -/
structure HistEntry where
  timestamp : String
  payer : String
  total_cost : ℚ
  people : List String
deriving DecidableEq

/-- Python `ts.replace("Z", "+00:00")` for the single-character pattern
`"Z"`: every `'Z'` is replaced by `"+00:00"`. -/
def replaceZ (s : String) : String :=
  String.mk (s.data.flatMap (fun c => if c = 'Z' then "+00:00".data else [c]))

/-- Embedding of `_parse_iso` (src/backend/storage.py, lines 174-181).
`datetime.fromisoformat` is abstracted by the parameter `fi`; a `none`
result of `fi` models the exception swallowed by the `try/except`.  Parsed
datetimes are abstracted to `Nat` (only their order is used). -/
def parse_iso (fi : String → Option Nat) (ts : String) : Option Nat :=
  if ts = "" then none else fi (replaceZ ts)

/-- One iteration of the loop of `_last_paid_map`: skip rows with a falsy
payer or an unparsable timestamp, otherwise keep the later timestamp. -/
def lastPaidStep (fi : String → Option Nat) (last : String → Option Nat)
    (row : HistEntry) : String → Option Nat :=
  match parse_iso fi row.timestamp with
  | none => last
  | some t =>
      if row.payer = "" then last
      else
        match last row.payer with
        | none => Function.update last row.payer (some t)
        | some t0 =>
            if t0 < t then Function.update last row.payer (some t) else last

/-- Embedding of `_last_paid_map` (src/backend/storage.py, lines 184-196):
map each payer to their most recent payment timestamp, or `none` if never. -/
def lastPaidMap (fi : String → Option Nat) (history : List HistEntry) :
    String → Option Nat :=
  history.foldl (lastPaidStep fi) (fun _ => none)

/-- Embedding of `_most_recent_from_set` (src/backend/storage.py, lines
199-209): scan history from most recent to oldest for a payer in `names`. -/
def mostRecentFromSet (history : List HistEntry) (names : List String) :
    Option String :=
  (history.reverse.find? (fun row => names.contains row.payer)).map
    HistEntry.payer

/-- Python `str.lower` on an ASCII letter. -/
def lowerChar (c : Char) : Char :=
  if 'A' ≤ c ∧ c ≤ 'Z' then Char.ofNat (c.toNat + 32) else c

/-- Characters stripped by Python `str.strip()`. -/
def isSpaceChar (c : Char) : Bool :=
  c = ' ' || c = '\t' || c = '\n' || c = '\r' || c = '\x0b' || c = '\x0c'

/-- Python `s.strip()`. -/
def pyStrip (s : String) : String :=
  String.mk (((s.data.dropWhile isSpaceChar).reverse.dropWhile
    isSpaceChar).reverse)

/-- Python `s.lower()` (ASCII range, which covers the strategy names). -/
def pyLower (s : String) : String := String.mk (s.data.map lowerChar)

/-- The strategy normalization `(tie_strategy or "least_recent").strip().lower()`
of `select_payer` (src/backend/storage.py, line 261). -/
def normalizeTie (tie_strategy : String) : String :=
  pyLower (pyStrip (if tie_strategy = "" then "least_recent" else
    tie_strategy))

/-- The sort key of the `least_recent` branch (src/backend/storage.py,
lines 282-286): `(never_rank, last_paid or datetime.min, name)`, with
`datetime.min` abstracted to `0`. -/
def lrKey (last : String → Option Nat) (name : String) : Nat × Nat × String :=
  match last name with
  | none => (0, 0, name)
  | some t => (1, t, name)

/-- Lexicographic comparison of `least_recent` sort keys, as Python tuple
comparison orders them. -/
def keyLe (a b : Nat × Nat × String) : Prop :=
  a.1 < b.1 ∨ (a.1 = b.1 ∧
    (a.2.1 < b.2.1 ∨ (a.2.1 = b.2.1 ∧ pyLe a.2.2 b.2.2)))

instance : DecidableRel keyLe := fun _ _ => by
  unfold keyLe; infer_instance

/-- Ordering of tied names by `least_recent` key. -/
def lrRel (last : String → Option Nat) (a b : String) : Prop :=
  keyLe (lrKey last a) (lrKey last b)

instance (last : String → Option Nat) : DecidableRel (lrRel last) :=
  fun a b => inferInstanceAs (Decidable (keyLe (lrKey last a) (lrKey last b)))

/-- The restriction of `candidates` to names present in `balances`
(src/backend/storage.py, line 250). -/
def presentOf (balances : Dict) (candidates : List String) : List String :=
  candidates.filter (fun c => (dget balances c).isSome)

/-- The balance used for a present candidate (`balances[c]`; absent keys
cannot occur for present candidates, `0` is a don't-care default). -/
def balOf (balances : Dict) (c : String) : ℚ := (dget balances c).getD 0

/-- Python `min(balances[c] for c in present)` for `present = c :: cs`
(src/backend/storage.py, line 255). -/
def minPaid (balances : Dict) (c : String) (cs : List String) : ℚ :=
  cs.foldl (fun m x => min m (balOf balances x)) (balOf balances c)

/-- The tie set: all present candidates at the minimum balance
(src/backend/storage.py, line 256); empty when nothing is present. -/
def tiesOf (balances : Dict) (candidates : List String) : List String :=
  match presentOf balances candidates with
  | [] => []
  | c :: cs =>
      (c :: cs).filter (fun x => balOf balances x = minPaid balances c cs)

/-- Embedding of `select_payer` (src/backend/storage.py, lines 216-289).
The RNG of the `random` strategy is abstracted by `pick`, which chooses an
index into the tie list (reduced mod its length, as `choice` stays in
range).  `fi` abstracts `datetime.fromisoformat` as in `parse_iso`. -/
def select_payer (balances : Dict) (candidates : List String)
    (tie_strategy : String) (history : List HistEntry)
    (fi : String → Option Nat) (pick : List String → Nat) :
    Except String String :=
  match presentOf balances candidates with
  | [] => Except.error "No valid candidates among balances."
  | c :: cs =>
      let ties :=
        (c :: cs).filter (fun x => balOf balances x = minPaid balances c cs)
      if ties.length = 1 then Except.ok (ties.headD "")
      else
        let s := normalizeTie tie_strategy
        if s = "alpha" then Except.ok ((List.insertionSort pyLe ties).headD "")
        else if s = "random" then
          Except.ok (ties.getD (pick ties % ties.length) "")
        else if s = "round_robin" then
          let ordered := List.insertionSort pyLe ties
          match mostRecentFromSet history ordered with
          | none => Except.ok (ordered.headD "")
          | some recent =>
              if recent = "" then Except.ok (ordered.headD "")
              else Except.ok (ordered.getD
                ((List.indexOf recent ordered + 1) % ordered.length) "")
        else
          let last := lastPaidMap fi history
          Except.ok ((List.insertionSort (lrRel last) ties).headD "")

/-- The debit loop of `api_run` (src/backend/app.py, lines 111-112): each
included person is debited their own price. -/
def debit_loop (prices balances : Dict) (included : List String) : Dict :=
  included.foldl
    (fun b p => dset b p (money ((dget b p).getD 0 - (dget prices p).getD 0)))
    balances

/-- The settlement update of `api_run` (src/backend/app.py, lines 111-113):
debit every included person, then credit the payer with the round total.
In app.py the payer is read with `balances_dec[payer]`; the payer is always
in the dict there (payer is an included person), so `getD 0` only widens
the domain. -/
def run_round (prices balances : Dict) (included : List String)
    (payer : String) (total : ℚ) : Dict :=
  let b1 := debit_loop prices balances included
  dset b1 payer (money ((dget b1 payer).getD 0 + total))

/-- Embedding of the `api_run` handler pipeline (src/backend/app.py, lines
89-128), up to the returned balances: default the people list to all price
keys, compute the total and included list, reject an empty inclusion,
select the payer, and apply the settlement update. -/
def api_run (prices balances : Dict) (people0 : List String) (tie : String)
    (history : List HistEntry) (fi : String → Option Nat)
    (pick : List String → Nat) :
    Except String (String × ℚ × List String × Dict) :=
  let people := if people0 = [] then prices.map Prod.fst else people0
  let tc := compute_total_cost prices people
  if tc.2 = [] then Except.error "No provided people match prices"
  else
    match select_payer balances tc.2 tie history fi pick with
    | Except.error e => Except.error e
    | Except.ok payer =>
        Except.ok (payer, tc.1, tc.2, run_round prices balances tc.2 payer tc.1)

/-! Order facts about the embedded Python string comparison. -/

theorem charToNat_inj {a b : Char} (h : a.toNat = b.toNat) : a = b :=
  Char.ext (UInt32.ext h)

theorem strLtAux_irrefl : ∀ l : List Char, strLtAux l l = false
  | [] => rfl
  | a :: as => by simp [strLtAux, strLtAux_irrefl as]

theorem strLtAux_asymm :
    ∀ {x y : List Char}, strLtAux x y = true → strLtAux y x = false
  | _ :: _, [], h => by simp [strLtAux] at h
  | [], _ :: _, _ => rfl
  | a :: as, b :: bs, h => by
      by_cases hab : a.toNat < b.toNat
      · simp [strLtAux, hab, Nat.lt_asymm hab]
      · by_cases hba : b.toNat < a.toNat
        · simp [strLtAux, hab, hba] at h
        · have h' : strLtAux as bs = true := by
            simpa [strLtAux, hab, hba] using h
          simp [strLtAux, hab, hba, strLtAux_asymm h']

theorem strLtAux_connex :
    ∀ {x y : List Char}, strLtAux x y = false → strLtAux y x = false → x = y
  | [], [], _, _ => rfl
  | [], _ :: _, h, _ => by simp [strLtAux] at h
  | _ :: _, [], _, h => by simp [strLtAux] at h
  | a :: as, b :: bs, h, h' => by
      by_cases hab : a.toNat < b.toNat
      · simp [strLtAux, hab] at h
      · by_cases hba : b.toNat < a.toNat
        · simp [strLtAux, hba] at h'
        · have heq : a = b := charToNat_inj (Nat.le_antisymm
            (Nat.not_lt.mp hba) (Nat.not_lt.mp hab))
          have h1 : strLtAux as bs = false := by
            simpa [strLtAux, hab, hba] using h
          have h2 : strLtAux bs as = false := by
            simpa [strLtAux, hab, hba] using h'
          rw [heq, strLtAux_connex h1 h2]

theorem strLtAux_trans :
    ∀ {x y z : List Char}, strLtAux x y = true → strLtAux y z = true →
      strLtAux x z = true
  | _, _ :: _, [], _, h2 => by simp [strLtAux] at h2
  | _, [], [], _, h2 => by simp [strLtAux] at h2
  | [], _, c :: cs, _, _ => by simp [strLtAux]
  | a :: as, [], _ :: _, h1, _ => by simp [strLtAux] at h1
  | a :: as, b :: bs, c :: cs, h1, h2 => by
      by_cases hab : a.toNat < b.toNat
      · by_cases hbc : b.toNat < c.toNat
        · simp [strLtAux, Nat.lt_trans hab hbc]
        · by_cases hcb : c.toNat < b.toNat
          · simp [strLtAux, hbc, hcb] at h2
          · have hbc' : b.toNat = c.toNat :=
              Nat.le_antisymm (Nat.not_lt.mp hcb) (Nat.not_lt.mp hbc)
            simp [strLtAux, hbc' ▸ hab]
      · by_cases hba : b.toNat < a.toNat
        · simp [strLtAux, hab, hba] at h1
        · have hab' : a.toNat = b.toNat :=
            Nat.le_antisymm (Nat.not_lt.mp hba) (Nat.not_lt.mp hab)
          have h1' : strLtAux as bs = true := by
            simpa [strLtAux, hab, hba] using h1
          by_cases hbc : b.toNat < c.toNat
          · simp [strLtAux, hab' ▸ hbc]
          · by_cases hcb : c.toNat < b.toNat
            · simp [strLtAux, hbc, hcb] at h2
            · have h2' : strLtAux bs cs = true := by
                simpa [strLtAux, hbc, hcb] using h2
              simp [strLtAux, hab' ▸ hbc, hab' ▸ hcb,
                strLtAux_trans h1' h2']

theorem pyLe_refl (s : String) : pyLe s s := strLtAux_irrefl s.data

theorem pyLe_total (s t : String) : pyLe s t ∨ pyLe t s := by
  unfold pyLe pyLt
  by_cases h : strLtAux t.data s.data = true
  · exact Or.inr (by simp [strLtAux_asymm h])
  · exact Or.inl (by simpa using h)

theorem pyLe_antisymm {s t : String} (h1 : pyLe s t) (h2 : pyLe t s) :
    s = t := by
  have h := strLtAux_connex h2 h1
  cases s; cases t
  exact congrArg String.mk h

theorem strLtAux_tri (x y : List Char) :
    strLtAux x y = true ∨ strLtAux y x = true ∨ x = y := by
  by_cases h1 : strLtAux x y = true
  · exact Or.inl h1
  by_cases h2 : strLtAux y x = true
  · exact Or.inr (Or.inl h2)
  exact Or.inr (Or.inr
    (strLtAux_connex (by simpa using h1) (by simpa using h2)))

theorem pyLe_trans {s t u : String} (h1 : pyLe s t) (h2 : pyLe t u) :
    pyLe s u := by
  unfold pyLe pyLt at *
  by_contra hus
  have hus' : strLtAux u.data s.data = true := by simpa using hus
  rcases strLtAux_tri t.data u.data with htu | hut | heq
  · exact absurd (strLtAux_trans htu hus') (by simp [h1])
  · exact absurd hut (by simp [h2])
  · rw [heq] at h1
    exact absurd hus' (by simp [h1])

instance : IsTotal String pyLe := ⟨pyLe_total⟩

instance : IsTrans String pyLe := ⟨fun _ _ _ => pyLe_trans⟩

instance : IsAntisymm String pyLe := ⟨fun _ _ => pyLe_antisymm⟩

instance : IsRefl String pyLe := ⟨pyLe_refl⟩

/-! Order facts about the `least_recent` key comparison. -/

theorem keyLe_refl (a : Nat × Nat × String) : keyLe a a :=
  Or.inr ⟨rfl, Or.inr ⟨rfl, pyLe_refl _⟩⟩

theorem keyLe_total (a b : Nat × Nat × String) : keyLe a b ∨ keyLe b a := by
  unfold keyLe
  rcases Nat.lt_trichotomy a.1 b.1 with h | h | h
  · exact Or.inl (Or.inl h)
  · rcases Nat.lt_trichotomy a.2.1 b.2.1 with h' | h' | h'
    · exact Or.inl (Or.inr ⟨h, Or.inl h'⟩)
    · rcases pyLe_total a.2.2 b.2.2 with hs | hs
      · exact Or.inl (Or.inr ⟨h, Or.inr ⟨h', hs⟩⟩)
      · exact Or.inr (Or.inr ⟨h.symm, Or.inr ⟨h'.symm, hs⟩⟩)
    · exact Or.inr (Or.inr ⟨h.symm, Or.inl h'⟩)
  · exact Or.inr (Or.inl h)

theorem keyLe_trans {a b c : Nat × Nat × String} (h1 : keyLe a b)
    (h2 : keyLe b c) : keyLe a c := by
  unfold keyLe at *
  rcases h1 with h1 | ⟨e1, h1⟩
  · rcases h2 with h2 | ⟨e2, _⟩
    · exact Or.inl (Nat.lt_trans h1 h2)
    · exact Or.inl (e2 ▸ h1)
  · rcases h2 with h2 | ⟨e2, h2⟩
    · exact Or.inl (e1 ▸ h2)
    · refine Or.inr ⟨e1.trans e2, ?_⟩
      rcases h1 with h1 | ⟨f1, h1⟩
      · rcases h2 with h2 | ⟨f2, _⟩
        · exact Or.inl (Nat.lt_trans h1 h2)
        · exact Or.inl (f2 ▸ h1)
      · rcases h2 with h2 | ⟨f2, h2⟩
        · exact Or.inl (f1 ▸ h2)
        · exact Or.inr ⟨f1.trans f2, pyLe_trans h1 h2⟩

theorem keyLe_antisymm {a b : Nat × Nat × String} (h1 : keyLe a b)
    (h2 : keyLe b a) : a = b := by
  unfold keyLe at *
  rcases h1 with h1 | ⟨e1, h1⟩
  · rcases h2 with h2 | ⟨e2, _⟩
    · exact absurd h2 (Nat.lt_asymm h1)
    · exact absurd h1 (e2 ▸ Nat.lt_irrefl _)
  · rcases h2 with h2 | ⟨e2, h2⟩
    · exact absurd h2 (e1 ▸ Nat.lt_irrefl _)
    · rcases h1 with h1 | ⟨f1, h1⟩
      · rcases h2 with h2 | ⟨f2, _⟩
        · exact absurd h2 (Nat.lt_asymm h1)
        · exact absurd h1 (f2 ▸ Nat.lt_irrefl _)
      · rcases h2 with h2 | ⟨f2, h2⟩
        · exact absurd h2 (f1 ▸ Nat.lt_irrefl _)
        · have hs := pyLe_antisymm h1 h2
          obtain ⟨a1, a2, a3⟩ := a
          obtain ⟨b1, b2, b3⟩ := b
          simp only at e1 f1 hs
          simp [e1, f1, hs]

theorem lrKey_name (last : String → Option Nat) (n : String) :
    (lrKey last n).2.2 = n := by
  cases h : last n <;> simp [lrKey, h]

instance (last : String → Option Nat) : IsTotal String (lrRel last) :=
  ⟨fun _ _ => keyLe_total _ _⟩

instance (last : String → Option Nat) : IsTrans String (lrRel last) :=
  ⟨fun _ _ _ h1 h2 => keyLe_trans h1 h2⟩

instance (last : String → Option Nat) : IsAntisymm String (lrRel last) :=
  ⟨fun a b h1 h2 => by
    have h := keyLe_antisymm h1 h2
    have := congrArg (fun k => k.2.2) h
    simpa [lrKey_name] using this⟩

instance (last : String → Option Nat) : IsRefl String (lrRel last) :=
  ⟨fun _ => keyLe_refl _⟩

/-! The minimum balance and the tie set. -/

theorem foldl_min_le (f : String → ℚ) :
    ∀ (l : List String) (init : ℚ),
      l.foldl (fun m x => min m (f x)) init ≤ init ∧
        ∀ x ∈ l, l.foldl (fun m x => min m (f x)) init ≤ f x := by
  intro l
  induction l with
  | nil => exact fun init => ⟨le_refl _, by simp⟩
  | cons y ys ih =>
      intro init
      have h := ih (min init (f y))
      constructor
      · exact le_trans (by simpa using h.1) (min_le_left _ _)
      · intro x hx
        rcases List.mem_cons.mp hx with rfl | hx
        · exact le_trans (by simpa using h.1) (min_le_right _ _)
        · simpa using h.2 x hx

theorem foldl_min_attained (f : String → ℚ) :
    ∀ (l : List String) (init : ℚ),
      l.foldl (fun m x => min m (f x)) init = init ∨
        ∃ x ∈ l, l.foldl (fun m x => min m (f x)) init = f x := by
  intro l
  induction l with
  | nil => exact fun init => Or.inl rfl
  | cons y ys ih =>
      intro init
      rcases ih (min init (f y)) with h | ⟨x, hx, h⟩
      · rcases min_choice init (f y) with hm | hm
        · exact Or.inl (by simpa [hm] using h)
        · exact Or.inr ⟨y, by simp, by simpa [hm] using h⟩
      · exact Or.inr ⟨x, by simp [hx], by simpa using h⟩

theorem minPaid_le (balances : Dict) (c : String) (cs : List String) :
    ∀ x ∈ c :: cs, minPaid balances c cs ≤ balOf balances x := by
  intro x hx
  rcases List.mem_cons.mp hx with rfl | hx
  · exact (foldl_min_le (balOf balances) cs (balOf balances x)).1
  · exact (foldl_min_le (balOf balances) cs (balOf balances c)).2 x hx

theorem minPaid_attained (balances : Dict) (c : String) (cs : List String) :
    ∃ x ∈ c :: cs, minPaid balances c cs = balOf balances x := by
  rcases foldl_min_attained (balOf balances) cs (balOf balances c) with h | ⟨x, hx, h⟩
  · exact ⟨c, by simp, h⟩
  · exact ⟨x, by simp [hx], h⟩

theorem headD_mem {l : List String} (h : l ≠ []) (d : String) :
    l.headD d ∈ l := by
  cases l with
  | nil => exact absurd rfl h
  | cons a as => simp

theorem getD_mem {l : List String} {n : Nat} (h : n < l.length)
    (d : String) : l.getD n d ∈ l := by
  rw [List.getD_eq_getElem l d h]
  exact List.getElem_mem h

theorem tiesOf_eq {balances : Dict} {candidates : List String} {c : String}
    {cs : List String} (h : presentOf balances candidates = c :: cs) :
    tiesOf balances candidates =
      (c :: cs).filter (fun x => balOf balances x = minPaid balances c cs) := by
  simp [tiesOf, h]

theorem tiesOf_ne_nil {balances : Dict} {candidates : List String}
    {c : String} {cs : List String}
    (h : presentOf balances candidates = c :: cs) :
    tiesOf balances candidates ≠ [] := by
  rw [tiesOf_eq h]
  obtain ⟨x, hx, hmin⟩ := minPaid_attained balances c cs
  intro hnil
  have : x ∈ (c :: cs).filter
      (fun x => balOf balances x = minPaid balances c cs) :=
    List.mem_filter.mpr ⟨hx, by simp [hmin]⟩
  simp [hnil] at this

theorem mem_tiesOf {balances : Dict} {candidates : List String} {c : String}
    {cs : List String} (h : presentOf balances candidates = c :: cs)
    {x : String} (hx : x ∈ tiesOf balances candidates) :
    x ∈ presentOf balances candidates ∧
      balOf balances x = minPaid balances c cs := by
  rw [tiesOf_eq h] at hx
  have := List.mem_filter.mp hx
  exact ⟨h ▸ this.1, by simpa using this.2⟩

theorem sort_headD_mem {r : String → String → Prop} [DecidableRel r]
    {l : List String} (h : l ≠ []) (d : String) :
    (List.insertionSort r l).headD d ∈ l := by
  have hperm := List.perm_insertionSort r l
  have hne : List.insertionSort r l ≠ [] := by
    intro hnil
    exact h (List.Perm.eq_nil (hnil ▸ hperm.symm))
  exact hperm.mem_iff.mp (headD_mem hne d)

/-- Whatever the strategy, a nonempty present list makes `select_payer`
return an element of the tie set. -/
theorem select_payer_ok {balances : Dict} {candidates : List String}
    (tie : String) (history : List HistEntry) (fi : String → Option Nat)
    (pick : List String → Nat) {c : String} {cs : List String}
    (h : presentOf balances candidates = c :: cs) :
    ∃ r, select_payer balances candidates tie history fi pick =
        Except.ok r ∧ r ∈ tiesOf balances candidates := by
  have hTne : tiesOf balances candidates ≠ [] := tiesOf_ne_nil h
  rw [tiesOf_eq h] at hTne ⊢
  set T := (c :: cs).filter
    (fun x => balOf balances x = minPaid balances c cs) with hT
  have hTpos : 0 < T.length := List.length_pos.mpr hTne
  simp only [select_payer, h]
  by_cases hlen : T.length = 1
  · exact ⟨T.headD "", by simp [← hT, hlen], headD_mem hTne ""⟩
  by_cases halpha : normalizeTie tie = "alpha"
  · exact ⟨(List.insertionSort pyLe T).headD "",
      by simp [← hT, hlen, halpha], sort_headD_mem hTne ""⟩
  by_cases hrandom : normalizeTie tie = "random"
  · refine ⟨T.getD (pick T % T.length) "",
      by simp [← hT, hlen, halpha, hrandom],
      getD_mem (Nat.mod_lt _ hTpos) ""⟩
  by_cases hrr : normalizeTie tie = "round_robin"
  · rcases hmr : mostRecentFromSet history (List.insertionSort pyLe T) with
      _ | recent
    · exact ⟨(List.insertionSort pyLe T).headD "",
        by simp [← hT, hlen, halpha, hrandom, hrr, hmr],
        sort_headD_mem hTne ""⟩
    · by_cases hrec : recent = ""
      · exact ⟨(List.insertionSort pyLe T).headD "",
          by simp [← hT, hlen, halpha, hrandom, hrr, hmr, hrec],
          sort_headD_mem hTne ""⟩
      · have hslen : 0 < (List.insertionSort pyLe T).length := by
          simpa [List.Perm.length_eq (List.perm_insertionSort pyLe T)]
            using hTpos
        refine ⟨(List.insertionSort pyLe T).getD
            ((List.indexOf recent (List.insertionSort pyLe T) + 1) %
              (List.insertionSort pyLe T).length) "",
          by simp [← hT, hlen, halpha, hrandom, hrr, hmr, hrec], ?_⟩
        exact (List.perm_insertionSort pyLe T).mem_iff.mp
          (getD_mem (Nat.mod_lt _ hslen) "")
  · exact ⟨(List.insertionSort (lrRel (lastPaidMap fi history)) T).headD "",
      by simp [← hT, hlen, halpha, hrandom, hrr],
      sort_headD_mem hTne ""⟩

/-- Claim C4: `select_payer` fails with the "no valid candidates" error
exactly when no candidate is present in the balance map; otherwise it
returns a present candidate whose balance is minimal among the present
candidates. -/
theorem C4_select_error_iff_no_candidate (balances : Dict)
    (candidates : List String) (tie : String) (history : List HistEntry)
    (fi : String → Option Nat) (pick : List String → Nat) :
    (select_payer balances candidates tie history fi pick =
        Except.error "No valid candidates among balances." ↔
      ∀ c ∈ candidates, dget balances c = none) ∧
    ((∃ c ∈ candidates, (dget balances c).isSome) →
      ∃ r v, select_payer balances candidates tie history fi pick =
          Except.ok r ∧ r ∈ candidates ∧ dget balances r = some v ∧
        ∀ c ∈ candidates, ∀ w, dget balances c = some w → v ≤ w) := by
  constructor
  · constructor
    · intro herr
      by_contra hnone
      push_neg at hnone
      obtain ⟨c0, hc0, hsome⟩ := hnone
      have hc0p : c0 ∈ presentOf balances candidates := by
        simp only [presentOf, List.mem_filter]
        exact ⟨hc0, by simpa [Option.isSome_iff_ne_none] using hsome⟩
      cases hpres : presentOf balances candidates with
      | nil => rw [hpres] at hc0p; simp at hc0p
      | cons c cs =>
          obtain ⟨r, hok, _⟩ := select_payer_ok tie history fi pick hpres
          rw [hok] at herr
          simp at herr
    · intro hnone
      have hpres : presentOf balances candidates = [] := by
        simp only [presentOf, List.filter_eq_nil_iff]
        intro c hc
        simp [hnone c hc]
      simp [select_payer, hpres]
  · rintro ⟨c0, hc0, hsome⟩
    have hc0p : c0 ∈ presentOf balances candidates := by
      simp only [presentOf, List.mem_filter]
      exact ⟨hc0, hsome⟩
    cases hpres : presentOf balances candidates with
    | nil => rw [hpres] at hc0p; simp at hc0p
    | cons c cs =>
        obtain ⟨r, hok, hrties⟩ := select_payer_ok tie history fi pick hpres
        obtain ⟨hrp, hrmin⟩ := mem_tiesOf hpres hrties
        have hrp' : r ∈ candidates ∧ (dget balances r).isSome = true := by
          simpa [presentOf, List.mem_filter] using hrp
        obtain ⟨hrcand, hrsome⟩ := hrp'
        obtain ⟨v, hv⟩ := Option.isSome_iff_exists.mp hrsome
        refine ⟨r, v, hok, hrcand, hv, ?_⟩
        intro x hx w hw
        have hxp : x ∈ presentOf balances candidates := by
          simp only [presentOf, List.mem_filter]
          exact ⟨hx, by simp [hw]⟩
        have hle := minPaid_le balances c cs x (hpres ▸ hxp)
        have hvr : balOf balances r = v := by simp [balOf, hv]
        have hwx : balOf balances x = w := by simp [balOf, hw]
        rw [hvr] at hrmin
        rw [hwx] at hle
        rw [hrmin]
        exact hle

/-- Witness for C4 at a concrete input: candidate "B" is absent, "A" is
present with the unique minimum. -/
theorem C4_witness :
    ∃ r v, select_payer [("A", 2), ("C", 5)] ["B", "A", "C"] "alpha" []
        (fun _ => none) (fun _ => 0) = Except.ok r ∧
      r ∈ ["B", "A", "C"] ∧ dget [("A", 2), ("C", 5)] r = some v ∧
      ∀ c ∈ ["B", "A", "C"], ∀ w, dget [("A", 2), ("C", 5)] c = some w →
        v ≤ w :=
  (C4_select_error_iff_no_candidate [("A", 2), ("C", 5)] ["B", "A", "C"]
    "alpha" [] (fun _ => none) (fun _ => 0)).2
    ⟨"A", by simp, by simp [dget]⟩

/-- Permutation invariance of the minimum balance over the present list. -/
theorem minPaid_perm {balances : Dict} {c c' : String}
    {cs cs' : List String} (h : (c :: cs).Perm (c' :: cs')) :
    minPaid balances c cs = minPaid balances c' cs' := by
  obtain ⟨x, hx, hxe⟩ := minPaid_attained balances c cs
  obtain ⟨x', hx', hxe'⟩ := minPaid_attained balances c' cs'
  apply le_antisymm
  · rw [hxe']
    exact minPaid_le balances c cs x' (h.mem_iff.mpr hx')
  · rw [hxe]
    exact minPaid_le balances c' cs' x (h.mem_iff.mp hx)

/-- Claim C7 (amended): payer selection is invariant under permutation of
the candidate list for every strategy except `random`; under `random` the
drawn index is applied to the reordered tie list, so the result can move. -/
theorem C7_select_perm_invariant (balances : Dict) (tie : String)
    (history : List HistEntry) (fi : String → Option Nat)
    (pick : List String → Nat) {candidates candidates' : List String}
    (hperm : candidates.Perm candidates')
    (hnr : normalizeTie tie ≠ "random") :
    select_payer balances candidates tie history fi pick =
      select_payer balances candidates' tie history fi pick := by
  have hpp : (presentOf balances candidates).Perm
      (presentOf balances candidates') := hperm.filter _
  cases hp1 : presentOf balances candidates with
  | nil =>
      have hp2 : presentOf balances candidates' = [] :=
        ((hp1 ▸ hpp) : List.Perm [] _).symm.eq_nil
      simp [select_payer, hp1, hp2]
  | cons c cs =>
      cases hp2 : presentOf balances candidates' with
      | nil =>
          have : (c :: cs).Perm [] := hp1 ▸ hp2 ▸ hpp
          simp at this
      | cons c' cs' =>
          have hcc : (c :: cs).Perm (c' :: cs') := hp1 ▸ hp2 ▸ hpp
          have hmin : minPaid balances c cs = minPaid balances c' cs' :=
            minPaid_perm hcc
          simp only [select_payer, hp1, hp2, hmin]
          have hts : ((c :: cs).filter
              (fun x => balOf balances x = minPaid balances c' cs')).Perm
              ((c' :: cs').filter
              (fun x => balOf balances x = minPaid balances c' cs')) :=
            hcc.filter _
          set T := (c :: cs).filter
            (fun x => balOf balances x = minPaid balances c' cs') with hT
          set T' := (c' :: cs').filter
            (fun x => balOf balances x = minPaid balances c' cs') with hT'
          have hlen : T.length = T'.length := hts.length_eq
          by_cases h1 : T.length = 1
          · obtain ⟨a, ha⟩ := List.length_eq_one.mp h1
            obtain ⟨a', ha'⟩ := List.length_eq_one.mp (hlen ▸ h1)
            have haa : a = a' := by
              have hmem : a ∈ T' := hts.mem_iff.mp (by rw [ha]; exact List.mem_singleton_self a)
              rw [ha'] at hmem
              simpa using hmem
            simp [h1, hlen ▸ h1, ha, ha', haa]
          · rw [if_neg h1, if_neg (fun hh => h1 (hlen.trans hh))]
            have hsort : List.insertionSort pyLe T =
                List.insertionSort pyLe T' :=
              List.eq_of_perm_of_sorted
                (((List.perm_insertionSort pyLe T).trans hts).trans
                  (List.perm_insertionSort pyLe T').symm)
                (List.sorted_insertionSort pyLe T)
                (List.sorted_insertionSort pyLe T')
            have hsortlr : List.insertionSort
                (lrRel (lastPaidMap fi history)) T =
                List.insertionSort (lrRel (lastPaidMap fi history)) T' :=
              List.eq_of_perm_of_sorted
                (((List.perm_insertionSort _ T).trans hts).trans
                  (List.perm_insertionSort _ T').symm)
                (List.sorted_insertionSort _ T)
                (List.sorted_insertionSort _ T')
            by_cases halpha : normalizeTie tie = "alpha"
            · simp [halpha, hsort]
            · rw [if_neg halpha, if_neg halpha, if_neg hnr, if_neg hnr]
              by_cases hrr : normalizeTie tie = "round_robin"
              · simp [hrr, hsort]
              · simp [hrr, hsortlr]

/-- Counterexample to C7 as stated: under the `random` strategy with the
same drawn index, permuting the candidates changes the selected payer. -/
theorem C7_counterexample :
    select_payer [("A", 0), ("B", 0)] ["A", "B"] "random" []
        (fun _ => none) (fun _ => 0) = Except.ok "A" ∧
    select_payer [("A", 0), ("B", 0)] ["B", "A"] "random" []
        (fun _ => none) (fun _ => 0) = Except.ok "B" ∧
    List.Perm ["A", "B"] ["B", "A"] ∧ ("A" : String) ≠ "B" :=
  ⟨rfl, rfl, by decide, by decide⟩

/-- Witness for the amended C7 at a concrete input: a permuted candidate
list yields the same payer under the default strategy. -/
theorem C7_witness :
    select_payer [("A", 0), ("B", 0)] ["A", "B"] "least_recent" []
        (fun _ => none) (fun _ => 0) =
      select_payer [("A", 0), ("B", 0)] ["B", "A"] "least_recent" []
        (fun _ => none) (fun _ => 0) :=
  C7_select_perm_invariant [("A", 0), ("B", 0)] "least_recent" []
    (fun _ => none) (fun _ => 0) (by decide) (by decide)

theorem sorted_headD_rel {r : String → String → Prop} [IsRefl String r]
    {l : List String} (hne : l ≠ []) (hs : List.Sorted r l) (d : String) :
    ∀ t ∈ l, r (l.headD d) t := by
  cases l with
  | nil => exact absurd rfl hne
  | cons a as =>
      intro t ht
      rcases List.mem_cons.mp ht with rfl | ht
      · exact refl_of r t
      · exact List.rel_of_sorted_cons hs t ht

/-- Claim C5: under the `least_recent` strategy, and for any absent or
unrecognized strategy string, the selected payer is a tied candidate that
is minimal in the ordering (never-paid first, then oldest most recent
payment, then lexicographic name). -/
theorem C5_least_recent_min_key (balances : Dict) (candidates : List String)
    (tie : String) (history : List HistEntry) (fi : String → Option Nat)
    (pick : List String → Nat)
    (hdef : normalizeTie tie ≠ "alpha" ∧ normalizeTie tie ≠ "random" ∧
      normalizeTie tie ≠ "round_robin")
    {c : String} {cs : List String}
    (hp : presentOf balances candidates = c :: cs) :
    ∃ r, select_payer balances candidates tie history fi pick =
        Except.ok r ∧ r ∈ tiesOf balances candidates ∧
      ∀ t ∈ tiesOf balances candidates,
        keyLe (lrKey (lastPaidMap fi history) r)
          (lrKey (lastPaidMap fi history) t) := by
  obtain ⟨ha, hr, hrr⟩ := hdef
  have hTne : tiesOf balances candidates ≠ [] := tiesOf_ne_nil hp
  simp only [tiesOf_eq hp] at hTne ⊢
  set T := (c :: cs).filter
    (fun x => balOf balances x = minPaid balances c cs) with hT
  simp only [select_payer, hp, ← hT]
  by_cases h1 : T.length = 1
  · obtain ⟨a, hae⟩ := List.length_eq_one.mp h1
    refine ⟨a, by simp [h1, hae], by simp [hae], ?_⟩
    intro t ht
    rw [hae] at ht
    rw [List.mem_singleton.mp ht]
    exact keyLe_refl _
  · refine ⟨(List.insertionSort (lrRel (lastPaidMap fi history)) T).headD "",
      by simp [h1, ha, hr, hrr], sort_headD_mem hTne "", ?_⟩
    intro t ht
    have hts : t ∈ List.insertionSort (lrRel (lastPaidMap fi history)) T :=
      (List.perm_insertionSort _ T).mem_iff.mpr ht
    have hsne : List.insertionSort (lrRel (lastPaidMap fi history)) T ≠ [] := by
      intro hnil
      exact hTne (List.Perm.eq_nil (hnil ▸ (List.perm_insertionSort _ T).symm))
    exact sorted_headD_rel hsne (List.sorted_insertionSort _ T) "" t hts

/-- Witness for C5: unrecognized strategy falls back to `least_recent`;
with Ann and Bob tied and only Bob in history, the never-paid Ann is the
minimal key. -/
theorem C5_witness :
    ∃ r, select_payer [("Ann", 5), ("Bob", 5)] ["Ann", "Bob"] "bogus"
        [⟨"2024-01-01T00:00:00+00:00", "Bob", 10, ["Ann", "Bob"]⟩]
        (fun s => if s = "2024-01-01T00:00:00+00:00" then some 1 else none)
        (fun _ => 0) = Except.ok r ∧
      r ∈ tiesOf [("Ann", 5), ("Bob", 5)] ["Ann", "Bob"] ∧
      ∀ t ∈ tiesOf [("Ann", 5), ("Bob", 5)] ["Ann", "Bob"],
        keyLe
          (lrKey (lastPaidMap
            (fun s => if s = "2024-01-01T00:00:00+00:00" then some 1 else none)
            [⟨"2024-01-01T00:00:00+00:00", "Bob", 10, ["Ann", "Bob"]⟩]) r)
          (lrKey (lastPaidMap
            (fun s => if s = "2024-01-01T00:00:00+00:00" then some 1 else none)
            [⟨"2024-01-01T00:00:00+00:00", "Bob", 10, ["Ann", "Bob"]⟩]) t) :=
  C5_least_recent_min_key [("Ann", 5), ("Bob", 5)] ["Ann", "Bob"] "bogus"
    [⟨"2024-01-01T00:00:00+00:00", "Bob", 10, ["Ann", "Bob"]⟩]
    (fun s => if s = "2024-01-01T00:00:00+00:00" then some 1 else none)
    (fun _ => 0) ⟨by decide, by decide, by decide⟩ rfl

theorem find?_eq_head?_filter (p : HistEntry → Bool) (l : List HistEntry) :
    l.find? p = (l.filter p).head? := by
  induction l with
  | nil => rfl
  | cons a as ih =>
      by_cases h : p a = true
      · rw [List.find?_cons_of_pos _ h, List.filter_cons, if_pos h,
          List.head?_cons]
      · rw [List.find?_cons_of_neg _ h, List.filter_cons, if_neg h, ih]

/-- The most recent entry whose payer is in `names` is the last entry of
the history filtered to payers in `names`. -/
theorem mostRecentFromSet_eq (history : List HistEntry)
    (names : List String) :
    mostRecentFromSet history names =
      ((history.filter
        (fun row => names.contains row.payer)).getLast?).map
        HistEntry.payer := by
  unfold mostRecentFromSet
  rw [find?_eq_head?_filter, List.filter_reverse, List.head?_reverse]

/-- Claim C6 (amended): under `round_robin` the tied candidate occurrences
are sorted lexicographically (duplicates kept); if history contains an
entry whose payer is among the tied names, and the most recent such payer
is a nonempty name, the payer after its first occurrence in the sorted
list is returned (wrapping); otherwise the first element is returned. -/
theorem C6_round_robin_next_after (balances : Dict)
    (candidates : List String) (tie : String) (history : List HistEntry)
    (fi : String → Option Nat) (pick : List String → Nat)
    (hrr : normalizeTie tie = "round_robin") {c : String} {cs : List String}
    (hp : presentOf balances candidates = c :: cs)
    (hlen : (tiesOf balances candidates).length ≠ 1) :
    ∃ ordered, ordered.Perm (tiesOf balances candidates) ∧
      List.Sorted pyLe ordered ∧
      select_payer balances candidates tie history fi pick = Except.ok
        (match ((history.filter (fun row =>
            (tiesOf balances candidates).contains row.payer)).getLast?).map
            HistEntry.payer with
         | none => ordered.headD ""
         | some recent =>
             if recent = "" then ordered.headD ""
             else ordered.getD
               ((List.indexOf recent ordered + 1) % ordered.length) "") := by
  have hTeq := tiesOf_eq hp
  set T := (c :: cs).filter
    (fun x => balOf balances x = minPaid balances c cs) with hT
  refine ⟨List.insertionSort pyLe T,
    (List.perm_insertionSort pyLe T).trans (by rw [hTeq]),
    List.sorted_insertionSort pyLe T, ?_⟩
  rw [hTeq] at hlen
  have hcontains : ∀ row ∈ history,
      (List.insertionSort pyLe T).contains row.payer =
        (tiesOf balances candidates).contains row.payer := by
    intro row _
    have hmem : row.payer ∈ List.insertionSort pyLe T ↔
        row.payer ∈ tiesOf balances candidates := by
      rw [hTeq]
      exact (List.perm_insertionSort pyLe T).mem_iff
    have e1 : ((List.insertionSort pyLe T).contains row.payer = true) ↔
        row.payer ∈ List.insertionSort pyLe T := List.elem_iff
    have e2 : ((tiesOf balances candidates).contains row.payer = true) ↔
        row.payer ∈ tiesOf balances candidates := List.elem_iff
    rw [Bool.eq_iff_iff, e1, e2]
    exact hmem
  have hna : ¬ (("round_robin" : String) = "alpha") := by decide
  have hnrd : ¬ (("round_robin" : String) = "random") := by decide
  simp only [select_payer, hp, ← hT, if_neg hlen, hrr, if_neg hna,
    if_neg hnrd, eq_self_iff_true, if_true]
  rw [mostRecentFromSet_eq, List.filter_congr hcontains]
  generalize (Option.map HistEntry.payer (List.filter (fun row =>
      (tiesOf balances candidates).contains row.payer) history).getLast?) = res
  cases res with
  | none => rfl
  | some recent =>
      by_cases hrec : recent = ""
      · simp only [if_pos hrec]
      · simp only [if_neg hrec]

/-- Counterexample to C6 as stated: with duplicate tied candidates
`["A", "A", "B"]` and `A` the most recent tied payer, the claim mandates
the next distinct tied name `B`, but the code indexes past the first
occurrence of `A` in the duplicate-keeping sorted list `[A, A, B]` and
returns `A` again. -/
theorem C6_counterexample :
    select_payer [("A", 0), ("B", 0)] ["A", "A", "B"] "round_robin"
        [⟨"2024-01-01T00:00:00+00:00", "A", 1, ["A", "B"]⟩]
        (fun _ => none) (fun _ => 0) = Except.ok "A" ∧
      ("A" : String) ≠ "B" := ⟨rfl, by decide⟩

/-- Witness for the amended C6 on the repository's own round_robin test
data: tied Ann, Bob, Zed with Ann the most recent tied payer. -/
theorem C6_witness :
    ∃ ordered, ordered.Perm (tiesOf
        [("Ann", 5), ("Bob", 5), ("Zed", 5)] ["Ann", "Bob", "Zed"]) ∧
      List.Sorted pyLe ordered ∧
      select_payer [("Ann", 5), ("Bob", 5), ("Zed", 5)]
          ["Ann", "Bob", "Zed"] "round_robin"
          [⟨"2024-01-05T00:00:00+00:00", "Ann", 10, ["Ann", "Bob", "Zed"]⟩,
           ⟨"2024-01-06T00:00:00+00:00", "X", 10, ["X", "Y"]⟩]
          (fun _ => none) (fun _ => 0) = Except.ok
        (match (([⟨"2024-01-05T00:00:00+00:00", "Ann", 10,
              ["Ann", "Bob", "Zed"]⟩,
            ⟨"2024-01-06T00:00:00+00:00", "X", 10, ["X", "Y"]⟩].filter
            (fun row => (tiesOf [("Ann", 5), ("Bob", 5), ("Zed", 5)]
              ["Ann", "Bob", "Zed"]).contains row.payer)).getLast?).map
            HistEntry.payer with
         | none => ordered.headD ""
         | some recent =>
             if recent = "" then ordered.headD ""
             else ordered.getD
               ((List.indexOf recent ordered + 1) % ordered.length) "") :=
  C6_round_robin_next_after [("Ann", 5), ("Bob", 5), ("Zed", 5)]
    ["Ann", "Bob", "Zed"] "round_robin"
    [⟨"2024-01-05T00:00:00+00:00", "Ann", 10, ["Ann", "Bob", "Zed"]⟩,
     ⟨"2024-01-06T00:00:00+00:00", "X", 10, ["X", "Y"]⟩]
    (fun _ => none) (fun _ => 0) rfl rfl (by decide)

/-! Characterization of the settlement update. -/

theorem dget_debit_loop_not_mem (prices : Dict) :
    ∀ {included : List String} (balances : Dict) {p : String},
      p ∉ included →
      dget (debit_loop prices balances included) p = dget balances p := by
  intro included
  induction included with
  | nil => intro balances p _; rfl
  | cons q rest ih =>
      intro balances p hp
      have hpq : p ≠ q := fun h => hp (h ▸ List.mem_cons_self q rest)
      have hpr : p ∉ rest := fun h => hp (List.mem_cons_of_mem q h)
      calc dget (debit_loop prices balances (q :: rest)) p
          = dget (dset balances q (money ((dget balances q).getD 0 -
              (dget prices q).getD 0))) p := ih _ hpr
        _ = dget balances p := dget_dset_ne _ _ hpq

theorem dget_debit_loop_mem (prices : Dict) :
    ∀ {included : List String} (balances : Dict), included.Nodup →
      ∀ {p : String}, p ∈ included →
      dget (debit_loop prices balances included) p =
        some (money ((dget balances p).getD 0 - (dget prices p).getD 0)) := by
  intro included
  induction included with
  | nil => intro _ _ p hp; simp at hp
  | cons q rest ih =>
      intro balances hnd p hp
      have hq : q ∉ rest := (List.nodup_cons.mp hnd).1
      rcases List.mem_cons.mp hp with rfl | hp
      · calc dget (debit_loop prices balances (p :: rest)) p
            = dget (dset balances p (money ((dget balances p).getD 0 -
                (dget prices p).getD 0))) p :=
              dget_debit_loop_not_mem prices _ hq
          _ = some (money ((dget balances p).getD 0 -
                (dget prices p).getD 0)) := dget_dset_self _ _ _
      · have hpq : p ≠ q := fun h => hq (h ▸ hp)
        have := ih (dset balances q (money ((dget balances q).getD 0 -
          (dget prices q).getD 0))) (List.nodup_cons.mp hnd).2 hp
        rw [dget_dset_ne _ _ hpq] at this
        exact this

/-- After the settlement update the payer holds old balance minus own
price plus the round total (2-decimal inputs make the quantizations
identities). -/
theorem run_round_payer_eq (prices balances : Dict)
    (included : List String) (payer : String) (total : ℚ)
    (hnd : included.Nodup) (hpay : payer ∈ included)
    (hpr : dict2dp prices) (hbal : dict2dp balances) (htot : is2dp total) :
    dget (run_round prices balances included payer total) payer =
      some ((dget balances payer).getD 0 - (dget prices payer).getD 0 +
        total) := by
  unfold run_round
  rw [dget_dset_self]
  rw [dget_debit_loop_mem prices balances hnd hpay,
    money_of_is2dp (is2dp_sub (dict2dp_dget hbal payer)
      (dict2dp_dget hpr payer))]
  rw [Option.getD_some,
    money_of_is2dp (is2dp_add
      (is2dp_sub (dict2dp_dget hbal payer) (dict2dp_dget hpr payer)) htot)]

/-- Claim C1 (amended): with a duplicate-free included list, each included
non-payer is debited their own price, the payer nets total minus their own
price, and everyone else is untouched (all ledger values being exact
2-decimal values, as the program maintains). -/
theorem C1_settlement_model (prices balances : Dict)
    (included : List String) (payer : String) (total : ℚ)
    (hnd : included.Nodup) (hpay : payer ∈ included)
    (hpr : dict2dp prices) (hbal : dict2dp balances) (htot : is2dp total) :
    (∀ p ∈ included, p ≠ payer →
      dget (run_round prices balances included payer total) p =
        some ((dget balances p).getD 0 - (dget prices p).getD 0)) ∧
    dget (run_round prices balances included payer total) payer =
      some ((dget balances payer).getD 0 - (dget prices payer).getD 0 +
        total) ∧
    ∀ p, p ∉ included →
      dget (run_round prices balances included payer total) p =
        dget balances p := by
  have hdeb : ∀ p ∈ included,
      dget (debit_loop prices balances included) p =
        some ((dget balances p).getD 0 - (dget prices p).getD 0) := by
    intro p hp
    rw [dget_debit_loop_mem prices balances hnd hp,
      money_of_is2dp (is2dp_sub (dict2dp_dget hbal p) (dict2dp_dget hpr p))]
  refine ⟨?_, ?_, ?_⟩
  · intro p hp hne
    unfold run_round
    rw [dget_dset_ne _ _ hne]
    exact hdeb p hp
  · exact run_round_payer_eq prices balances included payer total hnd hpay
      hpr hbal htot
  · intro p hp
    have hne : p ≠ payer := fun h => hp (h ▸ hpay)
    unfold run_round
    rw [dget_dset_ne _ _ hne]
    exact dget_debit_loop_not_mem prices balances hp

/-- Witness for the amended C1 on the default roster prices. -/
theorem C1_witness :
    (∀ p ∈ ["Bob", "Jim"], p ≠ "Bob" →
      dget (run_round [("Bob", 9/2), ("Jim", 3), ("Sara", 5)]
          [("Bob", 0), ("Jim", 0), ("Sara", 0)] ["Bob", "Jim"] "Bob"
          (15/2)) p =
        some ((dget [("Bob", 0), ("Jim", 0), ("Sara", 0)] p).getD 0 -
          (dget [("Bob", 9/2), ("Jim", 3), ("Sara", 5)] p).getD 0)) ∧
    dget (run_round [("Bob", 9/2), ("Jim", 3), ("Sara", 5)]
        [("Bob", 0), ("Jim", 0), ("Sara", 0)] ["Bob", "Jim"] "Bob" (15/2))
        "Bob" =
      some ((dget [("Bob", 0), ("Jim", 0), ("Sara", 0)] "Bob").getD 0 -
        (dget [("Bob", 9/2), ("Jim", 3), ("Sara", 5)] "Bob").getD 0 +
        15/2) ∧
    ∀ p, p ∉ ["Bob", "Jim"] →
      dget (run_round [("Bob", 9/2), ("Jim", 3), ("Sara", 5)]
          [("Bob", 0), ("Jim", 0), ("Sara", 0)] ["Bob", "Jim"] "Bob"
          (15/2)) p =
        dget [("Bob", 0), ("Jim", 0), ("Sara", 0)] p :=
  C1_settlement_model [("Bob", 9/2), ("Jim", 3), ("Sara", 5)]
    [("Bob", 0), ("Jim", 0), ("Sara", 0)] ["Bob", "Jim"] "Bob" (15/2)
    (by decide) (by decide)
    (by
      intro kv hkv
      simp only [List.mem_cons, List.not_mem_nil, or_false] at hkv
      rcases hkv with rfl | rfl | rfl
      · exact ⟨450, by norm_num⟩
      · exact ⟨300, by norm_num⟩
      · exact ⟨500, by norm_num⟩)
    (by
      intro kv hkv
      simp only [List.mem_cons, List.not_mem_nil, or_false] at hkv
      rcases hkv with rfl | rfl | rfl <;> exact ⟨0, by norm_num⟩)
    ⟨750, by norm_num⟩

/-- Counterexample to C1 as stated: the request may repeat a person
(people `["A", "A"]`), and the code then debits them once per occurrence.
Here the payer "A" (price 1, round total 2) ends at balance 0, while the
claim's net change of total minus own price demands 0 + (2 - 1) = 1. -/
theorem C1_counterexample :
    select_payer [("A", 0)] ["A", "A"] "" [] (fun _ => none) (fun _ => 0) =
        Except.ok "A" ∧
      compute_total_cost [("A", 1)] ["A", "A"] = (2, ["A", "A"]) ∧
      dget (run_round [("A", 1)] [("A", 0)] ["A", "A"] "A" 2) "A" =
        some 0 ∧
      some (0 : ℚ) ≠ some ((0 : ℚ) + (2 - 1)) := by
  refine ⟨rfl, ?_, ?_, by norm_num⟩
  · have h2 : money 2 = 2 := money_of_is2dp ⟨200, by norm_num⟩
    unfold compute_total_cost
    norm_num [dget, h2]
  · norm_num [run_round, debit_loop, dget, dset, money, rhu]

/-- Claim C2 (amended): after a round the payer's balance is the old
balance plus the round total minus the payer's own price (the code runs
the debit-and-credit settlement model, not the credit-only one), for a
duplicate-free included list of 2-decimal ledgers. -/
theorem C2_payer_balance (prices balances : Dict) (included : List String)
    (payer : String) (total : ℚ) (hnd : included.Nodup)
    (hpay : payer ∈ included) (hpr : dict2dp prices)
    (hbal : dict2dp balances) (htot : is2dp total) :
    dget (run_round prices balances included payer total) payer =
      some ((dget balances payer).getD 0 + total -
        (dget prices payer).getD 0) := by
  rw [run_round_payer_eq prices balances included payer total hnd hpay hpr
    hbal htot]
  congr 1
  ring

/-- Counterexample to C2 as stated: a solo round for "A" (price 1, total
1) leaves the payer's balance at 0, not at old balance plus total = 1. -/
theorem C2_counterexample :
    select_payer [("A", 0)] ["A"] "" [] (fun _ => none) (fun _ => 0) =
        Except.ok "A" ∧
      compute_total_cost [("A", 1)] ["A"] = (1, ["A"]) ∧
      dget (run_round [("A", 1)] [("A", 0)] ["A"] "A" 1) "A" = some 0 ∧
      some (0 : ℚ) ≠ some ((0 : ℚ) + 1) := by
  refine ⟨rfl, ?_, ?_, by norm_num⟩
  · have h1 : money 1 = 1 := money_of_is2dp ⟨100, by norm_num⟩
    unfold compute_total_cost
    norm_num [dget, h1]
  · norm_num [run_round, debit_loop, dget, dset, money, rhu]

/-- Witness for the amended C2. -/
theorem C2_witness :
    dget (run_round [("Bob", 9/2), ("Jim", 3), ("Sara", 5)]
        [("Bob", 0), ("Jim", 0), ("Sara", 0)] ["Jim", "Sara"] "Jim" 8)
        "Jim" =
      some ((dget [("Bob", 0), ("Jim", 0), ("Sara", 0)] "Jim").getD 0 + 8 -
        (dget [("Bob", 9/2), ("Jim", 3), ("Sara", 5)] "Jim").getD 0) :=
  C2_payer_balance [("Bob", 9/2), ("Jim", 3), ("Sara", 5)]
    [("Bob", 0), ("Jim", 0), ("Sara", 0)] ["Jim", "Sara"] "Jim" 8
    (by decide) (by decide)
    (by
      intro kv hkv
      simp only [List.mem_cons, List.not_mem_nil, or_false] at hkv
      rcases hkv with rfl | rfl | rfl
      · exact ⟨450, by norm_num⟩
      · exact ⟨300, by norm_num⟩
      · exact ⟨500, by norm_num⟩)
    (by
      intro kv hkv
      simp only [List.mem_cons, List.not_mem_nil, or_false] at hkv
      rcases hkv with rfl | rfl | rfl <;> exact ⟨0, by norm_num⟩)
    ⟨800, by norm_num⟩

theorem is2dp_listSum : ∀ {l : List ℚ}, (∀ x ∈ l, is2dp x) → is2dp l.sum := by
  intro l
  induction l with
  | nil => intro _; simpa using is2dp_zero
  | cons x xs ih =>
      intro h
      rw [List.sum_cons]
      exact is2dp_add (h x (by simp))
        (ih fun y hy => h y (List.mem_cons_of_mem _ hy))

/-- The debit loop lowers the value sum by exactly the sum of the debited
prices, and keeps every balance an exact 2-decimal value. -/
theorem sumVals_debit_loop (prices : Dict) (hpr : dict2dp prices) :
    ∀ (included : List String) (balances : Dict), dict2dp balances →
      sumVals (debit_loop prices balances included) =
          sumVals balances -
            (included.map (fun p => (dget prices p).getD 0)).sum ∧
        dict2dp (debit_loop prices balances included) := by
  intro included
  induction included with
  | nil => intro balances hbal; exact ⟨by simp [debit_loop, sumVals], hbal⟩
  | cons q rest ih =>
      intro balances hbal
      have hq2 : is2dp ((dget balances q).getD 0) := dict2dp_dget hbal q
      have hp2 : is2dp ((dget prices q).getD 0) := dict2dp_dget hpr q
      have hmon : money ((dget balances q).getD 0 - (dget prices q).getD 0) =
          (dget balances q).getD 0 - (dget prices q).getD 0 :=
        money_of_is2dp (is2dp_sub hq2 hp2)
      have hb1 : dict2dp (dset balances q
          (money ((dget balances q).getD 0 - (dget prices q).getD 0))) :=
        dict2dp_dset hbal q (is2dp_money _)
      have hrec := ih (dset balances q
        (money ((dget balances q).getD 0 - (dget prices q).getD 0))) hb1
      constructor
      · have hstep : sumVals (dset balances q
            (money ((dget balances q).getD 0 - (dget prices q).getD 0))) =
            sumVals balances - (dget prices q).getD 0 := by
          rw [sumVals_dset, hmon]
          ring
        calc sumVals (debit_loop prices balances (q :: rest))
            = sumVals (dset balances q
                (money ((dget balances q).getD 0 -
                  (dget prices q).getD 0))) -
              (rest.map (fun p => (dget prices p).getD 0)).sum := hrec.1
          _ = sumVals balances -
              ((q :: rest).map (fun p => (dget prices p).getD 0)).sum := by
                rw [hstep, List.map_cons, List.sum_cons]
                ring
      · exact hrec.2

/-- Claim C8: a successful `api_run` round preserves the sum of all
balance values when prices and balances are exact 2-decimal maps: the
payer's credit of the total exactly offsets the included debits. -/
theorem C8_sum_preserved (prices balances : Dict) (people0 : List String)
    (tie : String) (history : List HistEntry) (fi : String → Option Nat)
    (pick : List String → Nat) (hpr : dict2dp prices)
    (hbal : dict2dp balances) {payer : String} {total : ℚ}
    {included : List String} {b' : Dict}
    (h : api_run prices balances people0 tie history fi pick =
      Except.ok (payer, total, included, b')) :
    sumVals b' = sumVals balances := by
  unfold api_run at h
  set people := if people0 = [] then prices.map Prod.fst else people0 with hpe
  by_cases hinc : (compute_total_cost prices people).2 = []
  · rw [if_pos hinc] at h
    simp at h
  · rw [if_neg hinc] at h
    cases hsel : select_payer balances (compute_total_cost prices people).2
        tie history fi pick with
    | error e => rw [hsel] at h; simp at h
    | ok r =>
        rw [hsel] at h
        simp only [Except.ok.injEq, Prod.mk.injEq] at h
        obtain ⟨hre, hte, hie, hbe⟩ := h
        rw [← hbe]
        have hsum2dp : is2dp (((compute_total_cost prices people).2.map
            (fun p => (dget prices p).getD 0)).sum) := by
          apply is2dp_listSum
          intro x hx
          obtain ⟨p, _, rfl⟩ := List.mem_map.mp hx
          exact dict2dp_dget hpr p
        have htot : (compute_total_cost prices people).1 =
            ((compute_total_cost prices people).2.map
              (fun p => (dget prices p).getD 0)).sum := by
          unfold compute_total_cost
          exact money_of_is2dp hsum2dp
        have hdeb := sumVals_debit_loop prices hpr
          (compute_total_cost prices people).2 balances hbal
        unfold run_round
        rw [sumVals_dset, hdeb.1,
          money_of_is2dp (is2dp_add (dict2dp_dget hdeb.2 r)
            (htot ▸ hsum2dp))]
        rw [htot]
        ring

/-- Witness for C8: a concrete two-person round; the payer ends at +3, the
other person at -3, and the sum stays 0. -/
theorem C8_witness :
    sumVals [("A", 3), ("B", -3)] = sumVals [("A", 0), ("B", 0)] :=
  @C8_sum_preserved [("A", 1), ("B", 3)] [("A", 0), ("B", 0)] ["A", "B"] ""
    [] (fun _ => none) (fun _ => 0)
    (by
      intro kv hkv
      simp only [List.mem_cons, List.not_mem_nil, or_false] at hkv
      rcases hkv with rfl | rfl
      · exact ⟨100, by norm_num⟩
      · exact ⟨300, by norm_num⟩)
    (by
      intro kv hkv
      simp only [List.mem_cons, List.not_mem_nil, or_false] at hkv
      rcases hkv with rfl | rfl <;> exact ⟨0, by norm_num⟩)
    "A" 4 ["A", "B"] [("A", 3), ("B", -3)]
    (by
      have hab : (("A" : String) = "B") = False :=
        eq_false (by decide)
      have hba : (("B" : String) = "A") = False :=
        eq_false (by decide)
      have htc : compute_total_cost [("A", 1), ("B", 3)] ["A", "B"] =
          (4, ["A", "B"]) := by
        have h4 : money 4 = 4 := money_of_is2dp ⟨400, by norm_num⟩
        unfold compute_total_cost
        norm_num [dget, h4, hab, hba]
      have hrun : run_round [("A", 1), ("B", 3)] [("A", 0), ("B", 0)]
          ["A", "B"] "A" 4 = [("A", 3), ("B", -3)] := by
        norm_num [run_round, debit_loop, dget, dset, money, rhu, hab, hba]
      have hsel : select_payer [("A", 0), ("B", 0)] ["A", "B"] "" []
          (fun _ => none) (fun _ => 0) = Except.ok "A" := rfl
      simp [api_run, htc, hsel, hrun])

/-- Claim C3: `compute_total_cost` keeps exactly the people present in the
price map, in input order with input multiplicity, silently dropping
unknown names; the total is the quantized exact sum of the included
prices (the exact sum itself when prices are 2-decimal), and the empty
people list gives total 0 and empty inclusion. -/
theorem C3_compute_total_cost (prices : Dict) (people : List String) :
    (compute_total_cost prices people).2.Sublist people ∧
    (∀ p, p ∈ (compute_total_cost prices people).2 ↔
      p ∈ people ∧ (dget prices p).isSome) ∧
    (∀ p, (dget prices p).isSome →
      (compute_total_cost prices people).2.count p = people.count p) ∧
    (compute_total_cost prices people).1 =
      money (((compute_total_cost prices people).2.map
        (fun p => (dget prices p).getD 0)).sum) ∧
    (dict2dp prices →
      (compute_total_cost prices people).1 =
        ((compute_total_cost prices people).2.map
          (fun p => (dget prices p).getD 0)).sum) ∧
    compute_total_cost prices [] = (0, []) := by
  refine ⟨List.filter_sublist people, ?_, ?_, rfl, ?_, ?_⟩
  · intro p
    unfold compute_total_cost
    simp [List.mem_filter]
  · intro p hp
    unfold compute_total_cost
    exact List.count_filter (by simpa using hp)
  · intro hpr
    unfold compute_total_cost
    exact money_of_is2dp (is2dp_listSum (by
      intro x hx
      obtain ⟨p, _, rfl⟩ := List.mem_map.mp hx
      exact dict2dp_dget hpr p))
  · unfold compute_total_cost
    simp only [List.filter_nil, List.map_nil, List.sum_nil]
    rw [show money 0 = 0 from money_of_is2dp ⟨0, by norm_num⟩]

/-- Witness for C3 on the repository's own test data: prices A=3, B=7,
people [A, X]. -/
theorem C3_witness :
    (compute_total_cost [("A", 3), ("B", 7)] ["A", "X"]).2.Sublist
        ["A", "X"] ∧
    (∀ p, p ∈ (compute_total_cost [("A", 3), ("B", 7)] ["A", "X"]).2 ↔
      p ∈ ["A", "X"] ∧ (dget [("A", 3), ("B", 7)] p).isSome) ∧
    (∀ p, (dget [("A", 3), ("B", 7)] p).isSome →
      (compute_total_cost [("A", 3), ("B", 7)] ["A", "X"]).2.count p =
        (["A", "X"] : List String).count p) ∧
    (compute_total_cost [("A", 3), ("B", 7)] ["A", "X"]).1 =
      money (((compute_total_cost [("A", 3), ("B", 7)] ["A", "X"]).2.map
        (fun p => (dget [("A", 3), ("B", 7)] p).getD 0)).sum) ∧
    (dict2dp [("A", 3), ("B", 7)] →
      (compute_total_cost [("A", 3), ("B", 7)] ["A", "X"]).1 =
        ((compute_total_cost [("A", 3), ("B", 7)] ["A", "X"]).2.map
          (fun p => (dget [("A", 3), ("B", 7)] p).getD 0)).sum) ∧
    compute_total_cost [("A", 3), ("B", 7)] [] = (0, []) :=
  C3_compute_total_cost [("A", 3), ("B", 7)] ["A", "X"]

/-! Timestamp parsing. -/

theorem noZ_flatMap : ∀ {l : List Char}, 'Z' ∉ l →
    l.flatMap (fun c => if c = 'Z' then "+00:00".data else [c]) = l := by
  intro l
  induction l with
  | nil => intro _; rfl
  | cons c cs ih =>
      intro h
      have hc : ¬ c = 'Z' := fun hcz => h (hcz ▸ List.mem_cons_self c cs)
      have hcs : 'Z' ∉ cs := fun hin => h (List.mem_cons_of_mem c hin)
      simp [List.flatMap_cons, hc, ih hcs]

theorem data_append (s t : String) : (s ++ t).data = s.data ++ t.data := by
  cases s
  cases t
  rfl

theorem replaceZ_append_Z {s : String} (h : 'Z' ∉ s.data) :
    replaceZ (s ++ "Z") = s ++ "+00:00" := by
  unfold replaceZ
  rw [String.ext_iff]
  simp only [data_append]
  rw [List.flatMap_append, noZ_flatMap h]
  rfl

theorem replaceZ_of_noZ {s : String} (h : 'Z' ∉ s.data) :
    replaceZ s = s := by
  unfold replaceZ
  rw [String.ext_iff]
  simpa using noZ_flatMap h

theorem append_ne_empty_of_ne {s t : String} (ht : t.data ≠ []) :
    s ++ t ≠ "" := by
  rw [Ne, String.ext_iff, data_append]
  intro hcontra
  exact ht (List.append_eq_nil.mp hcontra).2

/-- No payer whose every history row has a missing or unparsable timestamp
gets an entry in the last-paid map. -/
theorem lastPaidMap_none (fi : String → Option Nat) (p : String) :
    ∀ (history : List HistEntry) (acc : String → Option Nat),
      acc p = none →
      (∀ row ∈ history, row.payer = p →
        parse_iso fi row.timestamp = none) →
      history.foldl (lastPaidStep fi) acc p = none := by
  intro history
  induction history with
  | nil => intro acc hacc _; exact hacc
  | cons row rest ih =>
      intro acc hacc hrows
      rw [List.foldl_cons]
      refine ih _ ?_ (fun r hr hp => hrows r (List.mem_cons_of_mem _ hr) hp)
      unfold lastPaidStep
      cases hts : parse_iso fi row.timestamp with
      | none => exact hacc
      | some t =>
          dsimp only
          have hne : row.payer ≠ p := fun he => by
            have hcontra := hrows row (by simp) he
            rw [hts] at hcontra
            exact Option.some_ne_none t hcontra
          by_cases hpe : row.payer = ""
          · rw [if_pos hpe]
            exact hacc
          · rw [if_neg hpe]
            cases hlk : acc row.payer with
            | none =>
                dsimp only
                rw [Function.update_noteq (Ne.symm hne)]
                exact hacc
            | some t0 =>
                dsimp only
                by_cases hlt : t0 < t
                · rw [if_pos hlt, Function.update_noteq (Ne.symm hne)]
                  exact hacc
                · rw [if_neg hlt]
                  exact hacc

/-- Claim C9: a trailing "Z" zone marker parses like "+00:00"; an empty or
unparsable timestamp yields no timestamp instead of failing; and a payer
all of whose history rows have such timestamps is classified never-paid
(rank 0) by the `least_recent` key. -/
theorem C9_parse_iso_tolerant (fi : String → Option Nat) :
    (∀ s : String, 'Z' ∉ s.data →
      parse_iso fi (s ++ "Z") = fi (s ++ "+00:00") ∧
      parse_iso fi (s ++ "+00:00") = fi (s ++ "+00:00")) ∧
    (∀ ts : String, ts = "" ∨ fi (replaceZ ts) = none →
      parse_iso fi ts = none) ∧
    (∀ (history : List HistEntry) (p : String),
      (∀ row ∈ history, row.payer = p →
        parse_iso fi row.timestamp = none) →
      lastPaidMap fi history p = none ∧
      (lrKey (lastPaidMap fi history) p).1 = 0) := by
  refine ⟨?_, ?_, ?_⟩
  · intro s hs
    constructor
    · unfold parse_iso
      rw [if_neg (append_ne_empty_of_ne (by decide))]
      rw [replaceZ_append_Z hs]
    · unfold parse_iso
      rw [if_neg (append_ne_empty_of_ne (by decide))]
      rw [replaceZ_of_noZ (by
        rw [data_append]
        intro hmem
        rcases List.mem_append.mp hmem with h1 | h2
        · exact hs h1
        · revert h2
          decide)]
  · intro ts hts
    unfold parse_iso
    rcases hts with rfl | hfi
    · rw [if_pos rfl]
    · by_cases hempty : ts = ""
      · rw [if_pos hempty]
      · rw [if_neg hempty]
        exact hfi
  · intro history p hrows
    have hnone : lastPaidMap fi history p = none :=
      lastPaidMap_none fi p history (fun _ => none) rfl hrows
    exact ⟨hnone, by simp [lrKey, hnone]⟩

/-- Witness for C9 with a concrete parser: the Z form hits the parser's
+00:00 form, garbage yields none, and Ann stays never-paid. -/
theorem C9_witness :
    (parse_iso (fun s => if s = "2024-01-01T00:00:00+00:00" then some 5
        else none) ("2024-01-01T00:00:00" ++ "Z") =
      (fun s => if s = "2024-01-01T00:00:00+00:00" then some 5 else none)
        ("2024-01-01T00:00:00" ++ "+00:00")) ∧
    parse_iso (fun s => if s = "2024-01-01T00:00:00+00:00" then some 5
        else none) "garbage" = none ∧
    lastPaidMap (fun s => if s = "2024-01-01T00:00:00+00:00" then some 5
        else none) [⟨"garbage", "Ann", 1, ["Ann"]⟩] "Ann" = none :=
  ⟨((C9_parse_iso_tolerant (fun s =>
      if s = "2024-01-01T00:00:00+00:00" then some 5 else none)).1
      "2024-01-01T00:00:00" (by decide)).1,
   (C9_parse_iso_tolerant (fun s =>
      if s = "2024-01-01T00:00:00+00:00" then some 5 else none)).2.1
      "garbage" (Or.inr (by decide)),
   ((C9_parse_iso_tolerant (fun s =>
      if s = "2024-01-01T00:00:00+00:00" then some 5 else none)).2.2
      [⟨"garbage", "Ann", 1, ["Ann"]⟩] "Ann" (by decide)).1⟩

/-- Round-half-up to an integer: distance at most one half, and an exact
half rounds away from zero. -/
theorem rhu_abs_le (y : ℚ) : |y - (rhu y : ℚ)| ≤ 1/2 ∧
    (|y - (rhu y : ℚ)| = 1/2 → |(rhu y : ℚ)| > |y|) := by
  unfold rhu
  by_cases h : 0 ≤ y
  · rw [if_pos h]
    have h1 : ((⌊y + 1/2⌋ : ℤ) : ℚ) ≤ y + 1/2 := Int.floor_le _
    have h2 : y + 1/2 - 1 < ((⌊y + 1/2⌋ : ℤ) : ℚ) := Int.sub_one_lt_floor _
    constructor
    · rw [abs_le]
      constructor <;> linarith
    · intro heq
      have h3 : y - ((⌊y + 1/2⌋ : ℤ) : ℚ) = -(1/2) := by
        rcases (abs_eq (by norm_num : (0:ℚ) ≤ 1/2)).mp heq with he | he
        · linarith
        · exact he
      rw [abs_of_nonneg h,
        abs_of_nonneg (by linarith : (0:ℚ) ≤ ((⌊y + 1/2⌋ : ℤ) : ℚ))]
      linarith
  · rw [if_neg h]
    push_neg at h
    have h1 : ((⌊-y + 1/2⌋ : ℤ) : ℚ) ≤ -y + 1/2 := Int.floor_le _
    have h2 : -y + 1/2 - 1 < ((⌊-y + 1/2⌋ : ℤ) : ℚ) := Int.sub_one_lt_floor _
    constructor
    · rw [abs_le]
      push_cast
      constructor <;> linarith
    · intro heq
      have habs : |y - ((-⌊-y + 1/2⌋ : ℤ) : ℚ)| =
          |y + ((⌊-y + 1/2⌋ : ℤ) : ℚ)| := by
        push_cast
        ring_nf
      rw [habs] at heq
      have h3 : y + ((⌊-y + 1/2⌋ : ℤ) : ℚ) = 1/2 := by
        rcases (abs_eq (by norm_num : (0:ℚ) ≤ 1/2)).mp heq with he | he
        · exact he
        · linarith
      have h4 : ((-⌊-y + 1/2⌋ : ℤ) : ℚ) = y - 1/2 := by
        push_cast
        linarith
      rw [abs_of_neg h, h4,
        abs_of_neg (by linarith : (y : ℚ) - 1/2 < 0)]
      linarith

/-- Claim C10: `money` produces an exact 2-decimal value within half a
cent of its input, an exact half-cent tie rounds away from zero (so it
is round-half-up, not banker's rounding), and in particular 0.125
becomes 0.13 and -0.125 becomes -0.13. -/
theorem C10_money_round_half_up (q : ℚ) :
    is2dp (money q) ∧
    |q - money q| ≤ 1/200 ∧
    (|q - money q| = 1/200 → |money q| > |q|) ∧
    money (1/8) = 13/100 ∧ money (-(1/8)) = -(13/100) := by
  have hk := rhu_abs_le (q * 100)
  have hqm : q - money q = (q * 100 - (rhu (q * 100) : ℚ)) / 100 := by
    unfold money
    ring
  have habs : |q - money q| = |q * 100 - (rhu (q * 100) : ℚ)| / 100 := by
    rw [hqm, abs_div]
    norm_num
  refine ⟨is2dp_money q, ?_, ?_, ?_, ?_⟩
  · rw [habs]
    linarith [hk.1]
  · intro heq
    rw [habs] at heq
    have h12 : |q * 100 - (rhu (q * 100) : ℚ)| = 1/2 := by linarith
    have hgt := hk.2 h12
    have hmq : |money q| = |(rhu (q * 100) : ℚ)| / 100 := by
      unfold money
      rw [abs_div]
      norm_num
    have hq100 : |q * 100| = |q| * 100 := by
      rw [abs_mul]
      norm_num
    rw [hq100] at hgt
    rw [hmq]
    linarith
  · norm_num [money, rhu]
  · norm_num [money, rhu]

/-- Witness for C10 at the tie input 0.125: the bound holds, the tie
hypothesis holds, and the rounded value moved away from zero. -/
theorem C10_witness :
    |(1/8 : ℚ) - money (1/8)| ≤ 1/200 ∧ |money (1/8 : ℚ)| > |(1/8 : ℚ)| :=
  ⟨(C10_money_round_half_up (1/8)).2.1,
   (C10_money_round_half_up (1/8)).2.2.1 (by norm_num [money, rhu])⟩

end Coffee
